import Mathlib

/-!
# Verification of the IEEE 738-2012 conductor-temperature script

A shallow embedding, over the real numbers, of the Python script
`IEEE_738-2012.py`: its module-level constants, the heat-balance function
`get_i`, the bisection loop that computes the steady-state conductor
temperature `Tc_ss`, and the transient forward-Euler integration loop with
its melting-point latch.

Python exception behavior is modelled with `Option`: `math.sqrt` raises
`ValueError` on a negative argument, and a float power with negative base
and non-integral exponent yields a `complex` value, which subsequently makes
`math.sqrt` raise `TypeError` (in `get_i`) or makes the store into a float64
numpy array raise `TypeError` (in the transient loop).  Each of these is
modelled as `none`.
-/

namespace IEEE738

noncomputable section

/-! ## Module-level constants (source lines 32-61) -/

def total_time : ℕ := 7200
def points_per_second : ℕ := 50
def number_of_points : ℕ := points_per_second * total_time
/-- The time step, `dt = 1 / points_per_second`. -/
def dt : ℝ := 1 / (points_per_second : ℝ)

def I_ss : ℝ := 500
def I_f : ℝ := 20000
def D : ℝ := 22.8
def area : ℝ := D / 1000
def rho_f : ℝ := 1.029
def H_e : ℝ := 25
def Ta : ℝ := 25.0
def epsilon : ℝ := 0.5
def alpha : ℝ := 0.5
def H_c : ℝ := 72.5
def Z_c : ℝ := 139
def Z_l : ℝ := 90.0
def R_T_high : ℝ := 8.688e-5
def R_T_low : ℝ := 7.283e-5
def T_high : ℝ := 75.0
def T_low : ℝ := 25.0
def mCp : ℝ := 1.0 * 534
def Q_s : ℝ :=
  -42.2391 + 63.8044 * H_c - 1.9220 * H_c ^ 2 + 3.46921e-2 * H_c ^ 3
    - 3.61118e-4 * H_c ^ 4 + 1.94318e-6 * H_c ^ 5 - 4.07608e-9 * H_c ^ 6
def K_solar : ℝ := 1 + 1.148e-4 * H_e - 1.108e-8 * H_e ^ 2
def Q_se : ℝ := K_solar * Q_s
/-- The incidence angle `theta = acos(cos(H_c) * cos(Z_c - Z_l))`; the
script's `cos`/`acos` are the radian functions from Python's `math` module. -/
def theta : ℝ := Real.arccos (Real.cos H_c * Real.cos (Z_c - Z_l))

def melting_point_temperature : ℝ := 660
def I_ss_threshold : ℝ := 0.01

/-! ## The heat-balance function `get_i` (source lines 73-88)

`get_i` returns the current required for a conductor temperature `Tc`.
If `Tc < Ta` the term `(Tc - Ta)**1.25` is a Python `complex`, and
`math.sqrt` then raises `TypeError`; if the (real) radicand is negative,
`math.sqrt` raises `ValueError`.  Both are modelled as `none`. -/

def get_i (Tc R_T_highv R_T_lowv T_highv T_lowv Tav rho_fv Dv epsilonv
    alphav Q_sev thetav areav : ℝ) : Option ℝ :=
  if Tc < Tav then none
  else
    let R_Tc := ((R_T_highv - R_T_lowv) / (T_highv - T_lowv)) * (Tc - T_lowv) + R_T_lowv
    let q_cn := 0.0205 * rho_fv ^ (0.5 : ℝ) * Dv ^ (0.75 : ℝ) * (Tc - Tav) ^ (1.25 : ℝ)
    let q_r := 0.0178 * Dv * epsilonv * (((Tc + 273) / 100) ^ 4 - ((Tav + 273) / 100) ^ 4)
    let q_s := alphav * Q_sev * Real.sin thetav * areav
    if (q_cn + q_r - q_s) / R_Tc < 0 then none
    else some (Real.sqrt ((q_cn + q_r - q_s) / R_Tc))

theorem get_i_eq (Tc Rh Rl Th Tl Tav rho Dv ev av Qv thv arv : ℝ) :
    get_i Tc Rh Rl Th Tl Tav rho Dv ev av Qv thv arv =
      if Tc < Tav then none
      else if (0.0205 * rho ^ (0.5 : ℝ) * Dv ^ (0.75 : ℝ) * (Tc - Tav) ^ (1.25 : ℝ)
            + 0.0178 * Dv * ev * (((Tc + 273) / 100) ^ 4 - ((Tav + 273) / 100) ^ 4)
            - av * Qv * Real.sin thv * arv)
            / (((Rh - Rl) / (Th - Tl)) * (Tc - Tl) + Rl) < 0 then none
      else some (Real.sqrt ((0.0205 * rho ^ (0.5 : ℝ) * Dv ^ (0.75 : ℝ) * (Tc - Tav) ^ (1.25 : ℝ)
            + 0.0178 * Dv * ev * (((Tc + 273) / 100) ^ 4 - ((Tav + 273) / 100) ^ 4)
            - av * Qv * Real.sin thv * arv)
            / (((Rh - Rl) / (Th - Tl)) * (Tc - Tl) + Rl))) := rfl

/-! ## The bisection loop (source lines 64-104)

The claims quantify over the target current and the tolerance, so the loop
is parametrised by the quantities it reads; the script instantiates them
with the module constants above.  `bisectLoop` returns the list of midpoints
`Tc_test` that were passed to `get_i` during the run, together with the
state at exit of the `while` loop (`none` when the fuel runs out or a
`get_i` call raises).  The initial state has `I_ss_result = 0.0` and
`Tc_test = 0.0` (source lines 66-69). -/

structure BisectParams where
  R_T_high : ℝ
  R_T_low : ℝ
  T_high : ℝ
  T_low : ℝ
  Ta : ℝ
  rho_f : ℝ
  D : ℝ
  epsilon : ℝ
  alpha : ℝ
  Q_se : ℝ
  theta : ℝ
  area : ℝ
  I_ss : ℝ
  I_ss_threshold : ℝ

structure BisectState where
  Tc_min : ℝ
  Tc_max : ℝ
  I_ss_result : ℝ
  Tc_test : ℝ

def bisectInit (P : BisectParams) : BisectState :=
  ⟨P.Ta, P.Ta * 1000, 0, 0⟩

def bisectLoop (P : BisectParams) : ℕ → BisectState → List ℝ × Option BisectState
  | 0, _ => ([], none)
  | fuel + 1, s =>
    if s.I_ss_result > P.I_ss + P.I_ss_threshold ∨
        s.I_ss_result < P.I_ss - P.I_ss_threshold then
      let t := (s.Tc_max + s.Tc_min) / 2
      match get_i t P.R_T_high P.R_T_low P.T_high P.T_low P.Ta P.rho_f P.D
          P.epsilon P.alpha P.Q_se P.theta P.area with
      | none => ([t], none)
      | some r =>
        if r = P.I_ss then ([t], some ⟨s.Tc_min, s.Tc_max, r, t⟩)
        else if r > P.I_ss then
          let rest := bisectLoop P fuel ⟨s.Tc_min, t, r, t⟩
          (t :: rest.1, rest.2)
        else
          let rest := bisectLoop P fuel ⟨t, s.Tc_max, r, t⟩
          (t :: rest.1, rest.2)
    else ([], some s)

/-- The state invariant linking `I_ss_result` to the last evaluated
midpoint: it holds after every executed loop body. -/
def bisectInv (P : BisectParams) (s : BisectState) : Prop :=
  get_i s.Tc_test P.R_T_high P.R_T_low P.T_high P.T_low P.Ta P.rho_f P.D
    P.epsilon P.alpha P.Q_se P.theta P.area = some s.I_ss_result

/-- After any terminating run from a state satisfying `bisectInv`, the
invariant still holds and the stored current is within the threshold. -/
theorem bisectLoop_post (P : BisectParams) (h0 : 0 ≤ P.I_ss_threshold) :
    ∀ fuel s s₁, bisectInv P s → (bisectLoop P fuel s).2 = some s₁ →
      bisectInv P s₁ ∧ |s₁.I_ss_result - P.I_ss| ≤ P.I_ss_threshold := by
  intro fuel
  induction fuel with
  | zero => intro s s₁ _ h; simp [bisectLoop] at h
  | succ fuel ih =>
    intro s s₁ hinv hrun
    rw [bisectLoop] at hrun
    by_cases hc : s.I_ss_result > P.I_ss + P.I_ss_threshold ∨
        s.I_ss_result < P.I_ss - P.I_ss_threshold
    · rw [if_pos hc] at hrun
      dsimp only at hrun
      rcases hI : get_i ((s.Tc_max + s.Tc_min) / 2) P.R_T_high P.R_T_low P.T_high
          P.T_low P.Ta P.rho_f P.D P.epsilon P.alpha P.Q_se P.theta P.area with _ | r
      · rw [hI] at hrun; simp at hrun
      · rw [hI] at hrun
        dsimp only at hrun
        by_cases heq : r = P.I_ss
        · rw [if_pos heq] at hrun
          simp at hrun
          rw [← hrun]
          refine ⟨hI, ?_⟩
          simp [heq, h0]
        · rw [if_neg heq] at hrun
          by_cases hgt : r > P.I_ss
          · rw [if_pos hgt] at hrun
            exact ih ⟨s.Tc_min, (s.Tc_max + s.Tc_min) / 2, r, (s.Tc_max + s.Tc_min) / 2⟩
              s₁ hI hrun
          · rw [if_neg hgt] at hrun
            exact ih ⟨(s.Tc_max + s.Tc_min) / 2, s.Tc_max, r, (s.Tc_max + s.Tc_min) / 2⟩
              s₁ hI hrun
    · rw [if_neg hc] at hrun
      simp at hrun
      subst hrun
      push_neg at hc
      exact ⟨hinv, abs_le.mpr ⟨by linarith [hc.2], by linarith [hc.1]⟩⟩

/-- C1: for every target current and tolerance for which the bisection
terminates (and for which the `while` loop is entered at all, i.e. the
initial `I_ss_result = 0.0` fails the exit test), the state at exit of the
loop stores the last evaluated `get_i (Tc_test)`, and that value lies within
`I_ss_threshold` of `I_ss`; `Tc_ss` is that `Tc_test` (source line 104). -/
theorem bisection_returns_within_tolerance (P : BisectParams) (fuel : ℕ)
    (s₁ : BisectState) (h0 : 0 ≤ P.I_ss_threshold)
    (hentry : (0 : ℝ) > P.I_ss + P.I_ss_threshold ∨ (0 : ℝ) < P.I_ss - P.I_ss_threshold)
    (hrun : (bisectLoop P fuel (bisectInit P)).2 = some s₁) :
    get_i s₁.Tc_test P.R_T_high P.R_T_low P.T_high P.T_low P.Ta P.rho_f P.D
      P.epsilon P.alpha P.Q_se P.theta P.area = some s₁.I_ss_result ∧
      |s₁.I_ss_result - P.I_ss| ≤ P.I_ss_threshold := by
  rcases fuel with _ | fuel
  · simp [bisectLoop] at hrun
  · rw [bisectLoop] at hrun
    rw [if_pos (by simpa [bisectInit] using hentry)] at hrun
    dsimp only [bisectInit] at hrun
    rcases hI : get_i ((P.Ta * 1000 + P.Ta) / 2) P.R_T_high P.R_T_low P.T_high
        P.T_low P.Ta P.rho_f P.D P.epsilon P.alpha P.Q_se P.theta P.area with _ | r
    · rw [hI] at hrun; simp at hrun
    · rw [hI] at hrun
      dsimp only at hrun
      by_cases heq : r = P.I_ss
      · rw [if_pos heq] at hrun
        simp at hrun
        rw [← hrun]
        exact ⟨hI, by simp [heq, h0]⟩
      · rw [if_neg heq] at hrun
        by_cases hgt : r > P.I_ss
        · rw [if_pos hgt] at hrun
          exact bisectLoop_post P h0 fuel
            ⟨P.Ta, (P.Ta * 1000 + P.Ta) / 2, r, (P.Ta * 1000 + P.Ta) / 2⟩ s₁ hI hrun
        · rw [if_neg hgt] at hrun
          exact bisectLoop_post P h0 fuel
            ⟨(P.Ta * 1000 + P.Ta) / 2, P.Ta * 1000, r, (P.Ta * 1000 + P.Ta) / 2⟩ s₁ hI hrun

/-- C10: from any state satisfying the bracket invariant
`Ta ≤ Tc_min < Tc_max ≤ Ta * 1000`, every midpoint `Tc_test` passed to
`get_i` by the bisection lies strictly between `Ta` and `Ta * 1000` (so the
convection base `Tc_test - Ta` is strictly positive), and the invariant is
preserved through to the exit state. -/
theorem bisection_bracket_invariant (P : BisectParams) :
    ∀ fuel s, P.Ta ≤ s.Tc_min → s.Tc_min < s.Tc_max → s.Tc_max ≤ P.Ta * 1000 →
      (∀ t ∈ (bisectLoop P fuel s).1, (P.Ta < t ∧ t < P.Ta * 1000) ∧ 0 < t - P.Ta) ∧
      ∀ s₁, (bisectLoop P fuel s).2 = some s₁ →
        P.Ta ≤ s₁.Tc_min ∧ s₁.Tc_min < s₁.Tc_max ∧ s₁.Tc_max ≤ P.Ta * 1000 := by
  intro fuel
  induction fuel with
  | zero => intro s _ _ _; simp [bisectLoop]
  | succ fuel ih =>
    intro s hmin hlt hmax
    rw [bisectLoop]
    by_cases hc : s.I_ss_result > P.I_ss + P.I_ss_threshold ∨
        s.I_ss_result < P.I_ss - P.I_ss_threshold
    · rw [if_pos hc]
      dsimp only
      have htlo : s.Tc_min < (s.Tc_max + s.Tc_min) / 2 := by linarith
      have hthi : (s.Tc_max + s.Tc_min) / 2 < s.Tc_max := by linarith
      have hmid : (P.Ta < (s.Tc_max + s.Tc_min) / 2 ∧
          (s.Tc_max + s.Tc_min) / 2 < P.Ta * 1000) ∧
          0 < (s.Tc_max + s.Tc_min) / 2 - P.Ta := by
        refine ⟨⟨by linarith, by linarith⟩, by linarith⟩
      rcases hI : get_i ((s.Tc_max + s.Tc_min) / 2) P.R_T_high P.R_T_low P.T_high
          P.T_low P.Ta P.rho_f P.D P.epsilon P.alpha P.Q_se P.theta P.area with _ | r
      · exact ⟨by simpa using hmid, by simp⟩
      · dsimp only
        by_cases heq : r = P.I_ss
        · rw [if_pos heq]
          constructor
          · simpa using hmid
          · intro s₁ hs₁
            simp at hs₁
            rw [← hs₁]
            exact ⟨hmin, hlt, hmax⟩
        · rw [if_neg heq]
          by_cases hgt : r > P.I_ss
          · rw [if_pos hgt]
            obtain ⟨htr, hst⟩ := ih ⟨s.Tc_min, (s.Tc_max + s.Tc_min) / 2, r,
              (s.Tc_max + s.Tc_min) / 2⟩ hmin htlo (le_of_lt (by linarith))
            constructor
            · intro t htmem
              rcases List.mem_cons.mp htmem with h | h
              · rw [h]; exact hmid
              · exact htr t h
            · exact hst
          · rw [if_neg hgt]
            obtain ⟨htr, hst⟩ := ih ⟨(s.Tc_max + s.Tc_min) / 2, s.Tc_max, r,
              (s.Tc_max + s.Tc_min) / 2⟩ (le_of_lt (by linarith)) hthi hmax
            constructor
            · intro t htmem
              rcases List.mem_cons.mp htmem with h | h
              · rw [h]; exact hmid
              · exact htr t h
            · exact hst
    · rw [if_neg hc]
      refine ⟨by simp, ?_⟩
      intro s₁ hs₁
      simp at hs₁
      rw [← hs₁]
      exact ⟨hmin, hlt, hmax⟩

/-! ### A concrete bisection run

Parameter values at which `get_i` evaluates in closed form: the resistance
interpolation is constant (`0.0205`), radiation and solar terms vanish, and
the first midpoint `(Ta * 1000 + Ta) / 2 = 1001/999` makes the convection
base `Tc - Ta` equal to `1`, so `get_i` returns `sqrt 1 = 1` and the loop
exits through the `break` branch on its first iteration. -/

def bisectDemoParams : BisectParams :=
  { R_T_high := 0.0205, R_T_low := 0.0205, T_high := 1, T_low := 0,
    Ta := 2 / 999, rho_f := 1, D := 1, epsilon := 0, alpha := 0,
    Q_se := 0, theta := 0, area := 0, I_ss := 1, I_ss_threshold := 1 / 2 }

theorem get_i_demo :
    get_i (1001 / 999) 0.0205 0.0205 1 0 (2 / 999) 1 1 0 0 0 0 0 = some 1 := by
  rw [get_i_eq]
  have h1 : ((1001 : ℝ) / 999 - 2 / 999) = 1 := by norm_num
  rw [h1]
  norm_num [Real.one_rpow, Real.sin_zero, Real.sqrt_one]

theorem bisectLoop_demo (n : ℕ) :
    bisectLoop bisectDemoParams (n + 1) (bisectInit bisectDemoParams) =
      ([1001 / 999], some ⟨2 / 999, 2 / 999 * 1000, 1, 1001 / 999⟩) := by
  rw [bisectLoop]
  rw [if_pos (by norm_num [bisectDemoParams, bisectInit])]
  dsimp only [bisectInit, bisectDemoParams]
  have hmid : ((2 : ℝ) / 999 * 1000 + 2 / 999) / 2 = 1001 / 999 := by norm_num
  rw [hmid, get_i_demo]
  dsimp only
  rw [if_pos rfl]

/-- Witness for C1 at the demo parameters: applying the theorem to the
one-iteration run discharges all hypotheses. -/
theorem bisection_returns_within_tolerance_witness :
    get_i (1001 / 999) 0.0205 0.0205 1 0 (2 / 999) 1 1 0 0 0 0 0 = some 1 ∧
      |(1 : ℝ) - 1| ≤ 1 / 2 := by
  have h := bisection_returns_within_tolerance bisectDemoParams 1
    ⟨2 / 999, 2 / 999 * 1000, 1, 1001 / 999⟩
    (by norm_num [bisectDemoParams])
    (by norm_num [bisectDemoParams])
    (by rw [show (1 : ℕ) = 0 + 1 from rfl, bisectLoop_demo 0])
  simpa [bisectDemoParams] using h

/-- Witness for C10 at the demo parameters: the only evaluated midpoint,
`1001/999`, lies strictly inside `(Ta, Ta * 1000)`. -/
theorem bisection_bracket_invariant_witness :
    (((2 : ℝ) / 999 < 1001 / 999 ∧ (1001 : ℝ) / 999 < 2 / 999 * 1000) ∧
      0 < (1001 : ℝ) / 999 - 2 / 999) := by
  have h := (bisection_bracket_invariant bisectDemoParams 1
    (bisectInit bisectDemoParams)
    (by norm_num [bisectDemoParams, bisectInit])
    (by norm_num [bisectDemoParams, bisectInit])
    (by norm_num [bisectDemoParams, bisectInit])).1 (1001 / 999)
    (by rw [show (1 : ℕ) = 0 + 1 from rfl, bisectLoop_demo 0]; simp)
  simpa [bisectDemoParams] using h

/-! ## The transient integration loop (source lines 111-150)

The loop body (lines 127-150) recomputes the heat-balance terms at the
current temperature `Tc[x]`, pairs them with the next step's current
`I[x+1]`, performs the forward-Euler update for `Tc[x+1]` and `time[x+1]`,
and latches the melting event.  As in the bisection model, a temperature
below ambient makes `(Tc[x] - Ta)**1.25` a Python `complex`, and the store
into the float64 `dTc_dt` array then raises `TypeError`: modelled as
`none`.  The unused film temperature `T_film` (line 129) is kept. -/

structure TransParams where
  R_T_high : ℝ
  R_T_low : ℝ
  T_high : ℝ
  T_low : ℝ
  Ta : ℝ
  rho_f : ℝ
  D : ℝ
  epsilon : ℝ
  alpha : ℝ
  Q_se : ℝ
  theta : ℝ
  area : ℝ
  mCp : ℝ
  dt : ℝ
  melting_point_temperature : ℝ

/-- One loop body: the new conductor temperature `Tc[x+1]` computed from
`Tc[x]` and the next step's current `I[x+1]` (source lines 128-144). -/
def eulerNext (P : TransParams) (Tcx Inext : ℝ) : ℝ :=
  let R_Tc := ((P.R_T_high - P.R_T_low) / (P.T_high - P.T_low)) * (Tcx - P.T_low) + P.R_T_low
  let T_film := (Tcx + P.Ta) / 2
  let q_cn := 0.0205 * P.rho_f ^ (0.5 : ℝ) * P.D ^ (0.75 : ℝ) * (Tcx - P.Ta) ^ (1.25 : ℝ)
  let q_r := 0.0178 * P.D * P.epsilon * (((Tcx + 273) / 100) ^ 4 - ((P.Ta + 273) / 100) ^ 4)
  let q_s := P.alpha * P.Q_se * Real.sin P.theta * P.area
  let dTc_dt := (1 / P.mCp) * (R_Tc * Inext ^ 2 + q_s - q_cn - q_r)
  Tcx + dTc_dt * P.dt

theorem eulerNext_eq (P : TransParams) (Tcx Inext : ℝ) :
    eulerNext P Tcx Inext =
      Tcx + (1 / P.mCp) *
        ((((P.R_T_high - P.R_T_low) / (P.T_high - P.T_low)) * (Tcx - P.T_low) + P.R_T_low)
            * Inext ^ 2
          + P.alpha * P.Q_se * Real.sin P.theta * P.area
          - 0.0205 * P.rho_f ^ (0.5 : ℝ) * P.D ^ (0.75 : ℝ) * (Tcx - P.Ta) ^ (1.25 : ℝ)
          - 0.0178 * P.D * P.epsilon * (((Tcx + 273) / 100) ^ 4 - ((P.Ta + 273) / 100) ^ 4))
        * P.dt := rfl

/-- The transient loop from step `x`, running `steps` more iterations with
current temperature `Tcx`, current time `tx`, and melt latch state
`(found, ttm)`; returns the produced temperature and time series (with
their first entries `Tcx` and `tx`) and the final latch state. -/
def transRun (P : TransParams) (I : ℕ → ℝ) :
    ℕ → ℕ → ℝ → ℝ → ℕ → ℝ → Option (List ℝ × List ℝ × ℕ × ℝ)
  | _, 0, Tcx, tx, found, ttm => some ([Tcx], [tx], found, ttm)
  | x, steps + 1, Tcx, tx, found, ttm =>
    if Tcx < P.Ta then none
    else
      let Tc1 := eulerNext P Tcx (I (x + 1))
      let t1 := tx + P.dt
      let found1 : ℕ := if P.melting_point_temperature ≤ Tc1 ∧ found = 0 then 1 else found
      let ttm1 := if P.melting_point_temperature ≤ Tc1 ∧ found = 0 then t1 else ttm
      match transRun P I (x + 1) steps Tc1 t1 found1 ttm1 with
      | none => none
      | some (L, T, f, m) => some (Tcx :: L, tx :: T, f, m)

/-- The whole integration: `Tc[0] = Tc0`, `time[0] = 0`,
`found_melting_point = 0`, `time_to_melt = 0` (source lines 60-61, 115). -/
def transient (P : TransParams) (I : ℕ → ℝ) (N : ℕ) (Tc0 : ℝ) :
    Option (List ℝ × List ℝ × ℕ × ℝ) :=
  transRun P I 0 N Tc0 0 0 0

theorem range_map_shift (tx d : ℝ) (n : ℕ) :
    tx :: (List.range (n + 1)).map (fun k : ℕ => tx + d + (k : ℝ) * d) =
      (List.range (n + 2)).map (fun k : ℕ => tx + (k : ℝ) * d) := by
  rw [show List.range (n + 2) = 0 :: List.map Nat.succ (List.range (n + 1)) from
    List.range_succ_eq_map (n + 1)]
  simp only [List.map_cons, List.map_map]
  refine List.cons_eq_cons.mpr ⟨by norm_num, ?_⟩
  apply List.map_congr_left
  intro k _
  simp only [Function.comp_apply]
  push_cast
  ring

/-- Structural facts about every successful `transRun`: series lengths, the
closed form of the time series, the heads, and the Euler step relation. -/
theorem transRun_spec (P : TransParams) (I : ℕ → ℝ) :
    ∀ steps x Tcx tx fd tm L T f m,
      transRun P I x steps Tcx tx fd tm = some (L, T, f, m) →
      L.length = steps + 1 ∧
      T = (List.range (steps + 1)).map (fun k : ℕ => tx + (k : ℝ) * P.dt) ∧
      L.getD 0 0 = Tcx ∧ T.getD 0 0 = tx ∧
      ∀ j, j < steps → L.getD (j + 1) 0 = eulerNext P (L.getD j 0) (I (x + j + 1)) := by
  intro steps
  induction steps with
  | zero =>
    intro x Tcx tx fd tm L T f m h
    rw [transRun] at h
    simp only [Option.some.injEq, Prod.mk.injEq] at h
    obtain ⟨hL, hT, _, _⟩ := h
    refine ⟨by simp [← hL], ?_, by simp [← hL], by simp [← hT], by omega⟩
    rw [← hT]
    simp [List.range_succ]
  | succ steps ih =>
    intro x Tcx tx fd tm L T f m h
    rw [transRun] at h
    by_cases hTa : Tcx < P.Ta
    · rw [if_pos hTa] at h; simp at h
    · rw [if_neg hTa] at h
      dsimp only at h
      rcases hrec : transRun P I (x + 1) steps (eulerNext P Tcx (I (x + 1))) (tx + P.dt)
          (if P.melting_point_temperature ≤ eulerNext P Tcx (I (x + 1)) ∧ fd = 0 then 1 else fd)
          (if P.melting_point_temperature ≤ eulerNext P Tcx (I (x + 1)) ∧ fd = 0
            then tx + P.dt else tm) with _ | res
      · rw [hrec] at h; simp at h
      · rw [hrec] at h
        obtain ⟨L₀, T₀, f₀, m₀⟩ := res
        dsimp only at h
        simp only [Option.some.injEq, Prod.mk.injEq] at h
        obtain ⟨hL, hT, hf, hm⟩ := h
        obtain ⟨ihlen, ihT, ihheadL, ihheadT, ihstep⟩ :=
          ih (x + 1) (eulerNext P Tcx (I (x + 1))) (tx + P.dt) _ _ L₀ T₀ f₀ m₀ hrec
        refine ⟨?_, ?_, ?_, ?_, ?_⟩
        · rw [← hL]; simp [ihlen]
        · rw [← hT, ihT]
          exact range_map_shift tx P.dt steps
        · rw [← hL]; simp
        · rw [← hT]; simp
        · intro j hj
          rw [← hL]
          rcases j with _ | j
          · simp only [List.getD_cons_succ, List.getD_cons_zero]
            rw [ihheadL]
          · simp only [List.getD_cons_succ]
            have := ihstep j (by omega)
            rw [this]
            congr 2
            omega

/-- Once the melting latch is set (`found ≠ 0`), the rest of the run leaves
both `found_melting_point` and `time_to_melt` unchanged. -/
theorem transRun_found_ne (P : TransParams) (I : ℕ → ℝ) :
    ∀ steps x Tcx tx fd tm L T f m,
      transRun P I x steps Tcx tx fd tm = some (L, T, f, m) → fd ≠ 0 →
      f = fd ∧ m = tm := by
  intro steps
  induction steps with
  | zero =>
    intro x Tcx tx fd tm L T f m h hfd
    rw [transRun] at h
    simp only [Option.some.injEq, Prod.mk.injEq] at h
    exact ⟨h.2.2.1.symm, h.2.2.2.symm⟩
  | succ steps ih =>
    intro x Tcx tx fd tm L T f m h hfd
    rw [transRun] at h
    by_cases hTa : Tcx < P.Ta
    · rw [if_pos hTa] at h; simp at h
    · rw [if_neg hTa] at h
      dsimp only at h
      rw [if_neg (by simp [hfd]), if_neg (by simp [hfd])] at h
      rcases hrec : transRun P I (x + 1) steps (eulerNext P Tcx (I (x + 1)))
          (tx + P.dt) fd tm with _ | res
      · rw [hrec] at h; simp at h
      · rw [hrec] at h
        obtain ⟨L₀, T₀, f₀, m₀⟩ := res
        dsimp only at h
        simp only [Option.some.injEq, Prod.mk.injEq] at h
        obtain ⟨_, _, hf, hm⟩ := h
        obtain ⟨h1, h2⟩ := ih (x + 1) _ _ fd tm L₀ T₀ f₀ m₀ hrec hfd
        exact ⟨by rw [← hf, h1], by rw [← hm, h2]⟩

/-- Starting with the latch clear, the final latch state records exactly the
first index whose temperature reaches the melting threshold. -/
theorem transRun_latch (P : TransParams) (I : ℕ → ℝ) :
    ∀ steps x Tcx tx tm L T f m,
      transRun P I x steps Tcx tx 0 tm = some (L, T, f, m) →
      ∀ j, j < steps → P.melting_point_temperature ≤ L.getD (j + 1) 0 →
      (∀ y, y < j → L.getD (y + 1) 0 < P.melting_point_temperature) →
      f = 1 ∧ m = T.getD (j + 1) 0 := by
  intro steps
  induction steps with
  | zero => intro x Tcx tx tm L T f m _ j hj; omega
  | succ steps ih =>
    intro x Tcx tx tm L T f m h j hj hcross hfirst
    rw [transRun] at h
    by_cases hTa : Tcx < P.Ta
    · rw [if_pos hTa] at h; simp at h
    · rw [if_neg hTa] at h
      dsimp only at h
      by_cases hm1 : P.melting_point_temperature ≤ eulerNext P Tcx (I (x + 1))
      · rw [if_pos ⟨hm1, rfl⟩, if_pos ⟨hm1, rfl⟩] at h
        rcases hrec : transRun P I (x + 1) steps (eulerNext P Tcx (I (x + 1)))
            (tx + P.dt) 1 (tx + P.dt) with _ | res
        · rw [hrec] at h; simp at h
        · rw [hrec] at h
          obtain ⟨L₀, T₀, f₀, m₀⟩ := res
          dsimp only at h
          simp only [Option.some.injEq, Prod.mk.injEq] at h
          obtain ⟨hL, hT, hf, hm'⟩ := h
          obtain ⟨hf1, hm1'⟩ := transRun_found_ne P I steps (x + 1) _ _ 1 (tx + P.dt)
            L₀ T₀ f₀ m₀ hrec one_ne_zero
          rcases j with _ | j
          · refine ⟨by rw [← hf, hf1], ?_⟩
            rw [← hm', hm1', ← hT]
            simp only [List.getD_cons_succ]
            obtain ⟨_, _, _, hheadT, _⟩ :=
              transRun_spec P I steps (x + 1) _ _ _ _ L₀ T₀ f₀ m₀ hrec
            rw [hheadT]
          · exfalso
            have h0 := hfirst 0 (by omega)
            rw [← hL] at h0
            simp only [List.getD_cons_succ] at h0
            obtain ⟨_, _, hheadL, _, _⟩ :=
              transRun_spec P I steps (x + 1) _ _ _ _ L₀ T₀ f₀ m₀ hrec
            rw [hheadL] at h0
            exact absurd hm1 (not_le.mpr h0)
      · rw [if_neg (by simp [hm1]), if_neg (by simp [hm1])] at h
        rcases hrec : transRun P I (x + 1) steps (eulerNext P Tcx (I (x + 1)))
            (tx + P.dt) 0 tm with _ | res
        · rw [hrec] at h; simp at h
        · rw [hrec] at h
          obtain ⟨L₀, T₀, f₀, m₀⟩ := res
          dsimp only at h
          simp only [Option.some.injEq, Prod.mk.injEq] at h
          obtain ⟨hL, hT, hf, hm'⟩ := h
          rcases j with _ | j
          · exfalso
            rw [← hL] at hcross
            simp only [List.getD_cons_succ] at hcross
            obtain ⟨_, _, hheadL, _, _⟩ :=
              transRun_spec P I steps (x + 1) _ _ _ _ L₀ T₀ f₀ m₀ hrec
            rw [hheadL] at hcross
            exact hm1 hcross
          · have hmain := ih (x + 1) _ _ tm L₀ T₀ f₀ m₀ hrec j (by omega)
              (by rw [← hL] at hcross; simpa using hcross)
              (by
                intro y hy
                have := hfirst (y + 1) (by omega)
                rw [← hL] at this
                simpa using this)
            refine ⟨by rw [← hf]; exact hmain.1, ?_⟩
            rw [← hm', ← hT]
            simp only [List.getD_cons_succ]
            exact hmain.2

/-- The idealized temperature sequence produced by iterating the loop body
from step `x`: the transient run computes exactly this sequence. -/
def TcSeqAux (P : TransParams) (I : ℕ → ℝ) (x : ℕ) (Tcx : ℝ) : ℕ → ℝ
  | 0 => Tcx
  | j + 1 => eulerNext P (TcSeqAux P I x Tcx j) (I (x + j + 1))

/-- The idealized temperature sequence of the whole integration. -/
def TcSeq (P : TransParams) (I : ℕ → ℝ) (Tc0 : ℝ) (j : ℕ) : ℝ :=
  TcSeqAux P I 0 Tc0 j

theorem TcSeqAux_shift (P : TransParams) (I : ℕ → ℝ) (x : ℕ) (Tcx : ℝ) :
    ∀ j, TcSeqAux P I (x + 1) (eulerNext P Tcx (I (x + 1))) j =
      TcSeqAux P I x Tcx (j + 1) := by
  intro j
  induction j with
  | zero => rfl
  | succ j ihj =>
    rw [TcSeqAux, TcSeqAux, ihj]
    have hidx : x + 1 + j + 1 = x + (j + 1) + 1 := by omega
    rw [hidx]

/-- If every temperature of the idealized sequence stays at or above
ambient, the run never raises and completes all its steps. -/
theorem transRun_total (P : TransParams) (I : ℕ → ℝ) :
    ∀ steps x Tcx tx fd tm,
      (∀ j, j < steps → P.Ta ≤ TcSeqAux P I x Tcx j) →
      ∃ L T f m, transRun P I x steps Tcx tx fd tm = some (L, T, f, m) := by
  intro steps
  induction steps with
  | zero => intro x Tcx tx fd tm _; exact ⟨[Tcx], [tx], fd, tm, rfl⟩
  | succ steps ih =>
    intro x Tcx tx fd tm h
    rw [transRun]
    have h0 : P.Ta ≤ Tcx := by simpa [TcSeqAux] using h 0 (by omega)
    rw [if_neg (not_lt.mpr h0)]
    dsimp only
    obtain ⟨L, T, f, m, hrec⟩ := ih (x + 1) (eulerNext P Tcx (I (x + 1))) (tx + P.dt)
      (if P.melting_point_temperature ≤ eulerNext P Tcx (I (x + 1)) ∧ fd = 0 then 1 else fd)
      (if P.melting_point_temperature ≤ eulerNext P Tcx (I (x + 1)) ∧ fd = 0
        then tx + P.dt else tm)
      (by
        intro j hj
        rw [TcSeqAux_shift]
        exact h (j + 1) (by omega))
    rw [hrec]
    exact ⟨Tcx :: L, tx :: T, f, m, rfl⟩

theorem getD_range_map (tx d : ℝ) (n j : ℕ) (hj : j < n) :
    ((List.range n).map (fun k : ℕ => tx + (k : ℝ) * d)).getD j 0 = tx + (j : ℝ) * d := by
  rw [List.getD_eq_getElem?_getD, List.getElem?_map, List.getElem?_range hj]
  rfl

/-- C2: for every step `x` of a completed transient integration, the next
temperature is the forward-Euler update driven by the one-step-offset
current `I[x+1]`:
`Tc[x+1] = Tc[x] + dt * (1/mCp) * (R_Tc(Tc[x]) * I[x+1]^2 + q_s - q_cn(Tc[x]) - q_r(Tc[x]))`,
and `time[x+1] = time[x] + dt`. -/
theorem euler_step_formula (P : TransParams) (I : ℕ → ℝ) (N : ℕ) (Tc0 : ℝ)
    (L T : List ℝ) (f : ℕ) (m : ℝ)
    (hrun : transient P I N Tc0 = some (L, T, f, m)) (x : ℕ) (hx : x < N) :
    L.getD (x + 1) 0 =
      L.getD x 0 + P.dt * (1 / P.mCp) *
        ((((P.R_T_high - P.R_T_low) / (P.T_high - P.T_low)) * (L.getD x 0 - P.T_low)
              + P.R_T_low) * (I (x + 1)) ^ 2
          + P.alpha * P.Q_se * Real.sin P.theta * P.area
          - 0.0205 * P.rho_f ^ (0.5 : ℝ) * P.D ^ (0.75 : ℝ) * (L.getD x 0 - P.Ta) ^ (1.25 : ℝ)
          - 0.0178 * P.D * P.epsilon *
              (((L.getD x 0 + 273) / 100) ^ 4 - ((P.Ta + 273) / 100) ^ 4)) ∧
      T.getD (x + 1) 0 = T.getD x 0 + P.dt := by
  obtain ⟨_, hT, _, _, hstep⟩ := transRun_spec P I N 0 Tc0 0 0 0 L T f m hrun
  constructor
  · have hs := hstep x hx
    rw [show 0 + x + 1 = x + 1 from by omega] at hs
    rw [hs, eulerNext_eq]
    ring
  · rw [hT, getD_range_map 0 P.dt (N + 1) (x + 1) (by omega),
      getD_range_map 0 P.dt (N + 1) x (by omega)]
    push_cast
    ring

/-- C4: the melt event of a completed run is latched exactly at the first
step `x` with `Tc[x+1] >= melt_threshold`: the final latch state is
`found_melting_point = 1` with `time_to_melt = time[x+1]`, and no later
crossing overwrites either field. -/
theorem melt_latch_first_crossing (P : TransParams) (I : ℕ → ℝ) (N : ℕ) (Tc0 : ℝ)
    (L T : List ℝ) (f : ℕ) (m : ℝ)
    (hrun : transient P I N Tc0 = some (L, T, f, m)) (x : ℕ) (hx : x < N)
    (hcross : P.melting_point_temperature ≤ L.getD (x + 1) 0)
    (hfirst : ∀ y, y < x → L.getD (y + 1) 0 < P.melting_point_temperature) :
    f = 1 ∧ m = T.getD (x + 1) 0 :=
  transRun_latch P I N 0 Tc0 0 0 L T f m hrun x hx hcross hfirst

/-- C5: a completed transient integration over `N` steps with `dt > 0`
produces a time series of length `N+1` with `time[k] = k * dt` (hence
strictly increasing with exact spacing `dt`, spanning `[0, N*dt]`) and a
temperature series of length `N+1` starting at the supplied initial
temperature. -/
theorem trajectory_shape (P : TransParams) (I : ℕ → ℝ) (N : ℕ) (Tc0 : ℝ)
    (L T : List ℝ) (f : ℕ) (m : ℝ) (hdt : 0 < P.dt)
    (hrun : transient P I N Tc0 = some (L, T, f, m)) :
    T = (List.range (N + 1)).map (fun k : ℕ => (k : ℝ) * P.dt) ∧
      T.length = N + 1 ∧ L.length = N + 1 ∧ L.getD 0 0 = Tc0 ∧
      List.Chain' (· < ·) T := by
  obtain ⟨hlen, hT, hheadL, _, _⟩ := transRun_spec P I N 0 Tc0 0 0 0 L T f m hrun
  have hT' : T = (List.range (N + 1)).map (fun k : ℕ => (k : ℝ) * P.dt) := by
    rw [hT]
    apply List.map_congr_left
    intro k _
    ring
  refine ⟨hT', by rw [hT']; simp, hlen, hheadL, ?_⟩
  rw [hT', List.chain'_map]
  rw [List.chain'_range_succ]
  intro mm hmm
  have hcast : (mm : ℝ) < ((mm + 1 : ℕ) : ℝ) := by push_cast; linarith
  exact mul_lt_mul_of_pos_right hcast hdt

/-- The script's transient-loop parameters (the module constants). -/
def scriptTransParams : TransParams :=
  { R_T_high := R_T_high, R_T_low := R_T_low, T_high := T_high, T_low := T_low,
    Ta := Ta, rho_f := rho_f, D := D, epsilon := epsilon, alpha := alpha,
    Q_se := Q_se, theta := theta, area := area, mCp := mCp, dt := dt,
    melting_point_temperature := melting_point_temperature }

/-- C6 counterexample: with the script's parameters (`Ta = 25`), an initial
temperature of `24` makes `(Tc[0] - Ta)**1.25` a Python `complex` at the
very first step, and the store into the float64 `dTc_dt` array raises
`TypeError`: the integrator stops before executing its `N = 1` steps and no
trajectory is produced. -/
theorem transient_crashes_below_ambient :
    transient scriptTransParams (fun _ => 0) 1 24 = none := by
  rw [transient, show (1 : ℕ) = 0 + 1 from rfl, transRun]
  rw [if_pos]
  norm_num [scriptTransParams, Ta]

/-- C6 amended: provided every temperature of the run stays at or above
ambient (so all arithmetic stays real), the integrator never terminates
early: all `N` steps execute, even past a melt crossing, and the full
`N+1`-point trajectory over the whole horizon is produced. -/
theorem transient_total_of_above_ambient (P : TransParams) (I : ℕ → ℝ) (N : ℕ)
    (Tc0 : ℝ) (h : ∀ j, j < N → P.Ta ≤ TcSeq P I Tc0 j) :
    ∃ L T f m, transient P I N Tc0 = some (L, T, f, m) ∧
      L.length = N + 1 ∧ T.length = N + 1 := by
  obtain ⟨L, T, f, m, hrun⟩ := transRun_total P I N 0 Tc0 0 0 0 h
  obtain ⟨hlen, hT, _, _, _⟩ := transRun_spec P I N 0 Tc0 0 0 0 L T f m hrun
  exact ⟨L, T, f, m, hrun, hlen, by rw [hT]; simp⟩

/-- C9 amended: the core performs no input validation at all.  In
particular an empty waveform (`N = 0`) is accepted and yields the trivial
one-point trajectory, whatever the values of `dt` and of the melt
threshold; nothing is rejected before simulation starts. -/
theorem transient_no_input_validation (P : TransParams) (I : ℕ → ℝ) (Tc0 : ℝ) :
    transient P I 0 Tc0 = some ([Tc0], [0], 0, 0) := rfl

/-! ### Concrete transient runs

Degenerate parameter values at which `eulerNext` evaluates in closed form:
unit air density, diameter, resistance and heat capacity, zero emissivity,
absorptivity and solar gain, ambient at `0`.  Starting from `Tc0 = 1` with a
zero current waveform, one step with `dt = 1` cools the conductor by the
convection loss `0.0205`; the melt threshold `1/2` is crossed immediately
(the temperature stays above it), latching the melt event at the first
step. -/

def transDemoParams : TransParams :=
  { R_T_high := 1, R_T_low := 1, T_high := 1, T_low := 0, Ta := 0,
    rho_f := 1, D := 1, epsilon := 0, alpha := 0, Q_se := 0, theta := 0,
    area := 0, mCp := 1, dt := 1, melting_point_temperature := 1 / 2 }

theorem eulerNext_demo :
    eulerNext transDemoParams 1 ((fun _ : ℕ => (0 : ℝ)) (0 + 1)) = 0.9795 := by
  rw [eulerNext_eq]
  norm_num [transDemoParams, Real.one_rpow, Real.sin_zero]

theorem transient_demo :
    transient transDemoParams (fun _ => 0) 1 1 =
      some ([1, 0.9795], [0, 1], 1, 1) := by
  rw [transient, show (1 : ℕ) = 0 + 1 from rfl, transRun]
  rw [if_neg (by norm_num [transDemoParams])]
  dsimp only
  rw [eulerNext_demo]
  rw [if_pos (by exact ⟨by norm_num [transDemoParams], rfl⟩),
    if_pos (by exact ⟨by norm_num [transDemoParams], rfl⟩)]
  rw [transRun]
  norm_num [transDemoParams]

/-- Witness for C2: the single step of the demo run satisfies the claimed
update formula with the offset current `I[1]`. -/
theorem euler_step_formula_witness :
    ([(1 : ℝ), 0.9795].getD 1 0 =
      [(1 : ℝ), 0.9795].getD 0 0 + 1 * (1 / 1) *
        ((((1 - 1) / (1 - 0)) * ([(1 : ℝ), 0.9795].getD 0 0 - 0) + 1) * (0 : ℝ) ^ 2
          + 0 * 0 * Real.sin 0 * 0
          - 0.0205 * (1 : ℝ) ^ (0.5 : ℝ) * (1 : ℝ) ^ (0.75 : ℝ)
              * ([(1 : ℝ), 0.9795].getD 0 0 - 0) ^ (1.25 : ℝ)
          - 0.0178 * 1 * 0 *
              ((([(1 : ℝ), 0.9795].getD 0 0 + 273) / 100) ^ 4 - ((0 + 273) / 100) ^ 4)) ∧
      [(0 : ℝ), 1].getD 1 0 = [(0 : ℝ), 1].getD 0 0 + 1) :=
  euler_step_formula transDemoParams (fun _ => 0) 1 1 _ _ _ _ transient_demo 0
    (by norm_num)

/-- Witness for C4: in the demo run the threshold is crossed at the first
step, and the latch records `found = 1` with `time_to_melt = time[1]`. -/
theorem melt_latch_first_crossing_witness :
    (1 = 1 ∧ (1 : ℝ) = [(0 : ℝ), 1].getD 1 0) :=
  melt_latch_first_crossing transDemoParams (fun _ => 0) 1 1 _ _ _ _ transient_demo 0
    (by norm_num)
    (by norm_num [transDemoParams])
    (by intro y hy; exact absurd hy (Nat.not_lt_zero y))

/-- Witness for C5 on the trivial zero-step run. -/
theorem trajectory_shape_witness :
    ([(0 : ℝ)] = (List.range 1).map (fun k : ℕ => (k : ℝ) * 1) ∧
      ([(0 : ℝ)] : List ℝ).length = 1 ∧ ([(5 : ℝ)] : List ℝ).length = 1 ∧
      ([(5 : ℝ)] : List ℝ).getD 0 0 = 5 ∧
      List.Chain' (· < ·) [(0 : ℝ)]) :=
  trajectory_shape transDemoParams (fun _ => 0) 0 5 _ _ _ _
    (by norm_num [transDemoParams]) rfl

/-- Witness for the amended C6: the demo run stays above ambient, so the
integrator completes. -/
theorem transient_total_witness :
    (transient transDemoParams (fun _ => 0) 1 1).isSome = true := by
  obtain ⟨L, T, f, m, hrun, _, _⟩ :=
    transient_total_of_above_ambient transDemoParams (fun _ => 0) 1 1
      (by
        intro j hj
        have hj0 : j = 0 := by omega
        subst hj0
        norm_num [TcSeq, TcSeqAux, transDemoParams])
  rw [hrun]
  rfl

/-- C9 counterexample parameters: a negative time step `dt = -1` and a melt
threshold `-5` below ambient `0`. -/
def transDemoBadParams : TransParams :=
  { R_T_high := 1, R_T_low := 1, T_high := 1, T_low := 0, Ta := 0,
    rho_f := 1, D := 1, epsilon := 0, alpha := 0, Q_se := 0, theta := 0,
    area := 0, mCp := 1, dt := -1, melting_point_temperature := -5 }

theorem eulerNext_demoBad :
    eulerNext transDemoBadParams 1 ((fun _ : ℕ => (0 : ℝ)) (0 + 1)) = 1.0205 := by
  rw [eulerNext_eq]
  norm_num [transDemoBadParams, Real.one_rpow, Real.sin_zero]

/-- C9 counterexample: with a non-positive `dt` and a melt threshold below
ambient, nothing is rejected: the integrator executes its step normally and
returns a full trajectory (here latching the melt event at the negative
time `-1`) instead of an explicit error. -/
theorem transient_accepts_invalid_inputs :
    transient transDemoBadParams (fun _ => 0) 1 1 =
      some ([1, 1.0205], [0, -1], 1, -1) := by
  rw [transient, show (1 : ℕ) = 0 + 1 from rfl, transRun]
  rw [if_neg (by norm_num [transDemoBadParams])]
  dsimp only
  rw [eulerNext_demoBad]
  rw [if_pos (by exact ⟨by norm_num [transDemoBadParams], rfl⟩),
    if_pos (by exact ⟨by norm_num [transDemoBadParams], rfl⟩)]
  rw [transRun]
  norm_num [transDemoBadParams]

/-! ## The heat-balance formula (C3) -/

/-- The function `get_i` returns `sqrt` of its radicand whenever `Tc` is at
least ambient and the radicand is nonnegative. -/
theorem get_i_some (Tc Rh Rl Th Tl Tav rho Dv ev av Qv thv arv : ℝ)
    (h1 : Tav ≤ Tc)
    (h2 : 0 ≤ (0.0205 * rho ^ (0.5 : ℝ) * Dv ^ (0.75 : ℝ) * (Tc - Tav) ^ (1.25 : ℝ)
        + 0.0178 * Dv * ev * (((Tc + 273) / 100) ^ 4 - ((Tav + 273) / 100) ^ 4)
        - av * Qv * Real.sin thv * arv)
        / (((Rh - Rl) / (Th - Tl)) * (Tc - Tl) + Rl)) :
    get_i Tc Rh Rl Th Tl Tav rho Dv ev av Qv thv arv =
      some (Real.sqrt ((0.0205 * rho ^ (0.5 : ℝ) * Dv ^ (0.75 : ℝ) * (Tc - Tav) ^ (1.25 : ℝ)
        + 0.0178 * Dv * ev * (((Tc + 273) / 100) ^ 4 - ((Tav + 273) / 100) ^ 4)
        - av * Qv * Real.sin thv * arv)
        / (((Rh - Rl) / (Th - Tl)) * (Tc - Tl) + Rl))) := by
  rw [get_i_eq, if_neg (not_lt.mpr h1), if_neg (not_lt.mpr h2)]

/-- C3: wherever it returns a value, the heat-balance function returns
`I(Tc) = sqrt((q_cn + q_r - q_s) / R_Tc(Tc))` with the formulas of the
specification: `R_Tc` the linear interpolation
`R_T_low + (R_T_high - R_T_low)/(T_high - T_low) * (Tc - T_low)`,
`q_cn = 0.0205 * rho_f^0.5 * D^0.75 * (Tc - Ta)^1.25`,
`q_r = 0.0178 * D * epsilon * (((Tc+273)/100)^4 - ((Ta+273)/100)^4)`, and
`q_s = alpha * Q_se * sin(theta) * area` independent of `Tc`;  the
function is pure (it is a function of its arguments alone). -/
theorem get_i_formula (Tc Rh Rl Th Tl Tav rho Dv ev av Qv thv arv : ℝ)
    (h1 : Tav ≤ Tc)
    (h2 : 0 ≤ (0.0205 * rho ^ (0.5 : ℝ) * Dv ^ (0.75 : ℝ) * (Tc - Tav) ^ (1.25 : ℝ)
        + 0.0178 * Dv * ev * (((Tc + 273) / 100) ^ 4 - ((Tav + 273) / 100) ^ 4)
        - av * Qv * Real.sin thv * arv)
        / (Rl + (Rh - Rl) / (Th - Tl) * (Tc - Tl))) :
    get_i Tc Rh Rl Th Tl Tav rho Dv ev av Qv thv arv =
      some (Real.sqrt ((0.0205 * rho ^ (0.5 : ℝ) * Dv ^ (0.75 : ℝ) * (Tc - Tav) ^ (1.25 : ℝ)
        + 0.0178 * Dv * ev * (((Tc + 273) / 100) ^ 4 - ((Tav + 273) / 100) ^ 4)
        - av * Qv * Real.sin thv * arv)
        / (Rl + (Rh - Rl) / (Th - Tl) * (Tc - Tl)))) := by
  have hden : Rl + (Rh - Rl) / (Th - Tl) * (Tc - Tl)
      = ((Rh - Rl) / (Th - Tl)) * (Tc - Tl) + Rl := by ring
  rw [hden] at h2 ⊢
  exact get_i_some Tc Rh Rl Th Tl Tav rho Dv ev av Qv thv arv h1 h2

/-- Witness for C3 at the demo values, where the radicand evaluates to 1. -/
theorem get_i_formula_witness :
    get_i (1001 / 999) 0.0205 0.0205 1 0 (2 / 999) 1 1 0 0 0 0 0 =
      some (Real.sqrt ((0.0205 * (1 : ℝ) ^ (0.5 : ℝ) * (1 : ℝ) ^ (0.75 : ℝ)
            * ((1001 : ℝ) / 999 - 2 / 999) ^ (1.25 : ℝ)
          + 0.0178 * 1 * 0 * ((((1001 : ℝ) / 999 + 273) / 100) ^ 4
            - (((2 : ℝ) / 999 + 273) / 100) ^ 4)
          - 0 * 0 * Real.sin 0 * 0)
        / (0.0205 + ((0.0205 - 0.0205) / (1 - 0)) * ((1001 : ℝ) / 999 - 0)))) :=
  get_i_formula (1001 / 999) 0.0205 0.0205 1 0 (2 / 999) 1 1 0 0 0 0 0
    (by norm_num)
    (by
      rw [show ((1001 : ℝ) / 999 - 2 / 999) = 1 from by norm_num]
      norm_num [Real.one_rpow, Real.sin_zero])

/-! ## Monotonicity of the heat balance at the script's parameters (C7)

`I(Tc) = sqrt((q_cn + q_r - q_s) / R_Tc)` with all four pieces increasing
in `Tc`; since the denominator also grows, monotonicity of the quotient is
a quantitative fact about the script's constants.  It is proved by showing
`q_cn(T1) * R_Tc(T2) ≤ q_cn(T2) * R_Tc(T1)` and
`q_r(T1) * R_Tc(T2) ≤ q_r(T2) * R_Tc(T1)` separately, and handling the
constant solar term through the monotonicity of `R_Tc`. -/

/-- The interpolated unit resistance at the script's constants. -/
def R_Tc_at (T : ℝ) : ℝ :=
  ((R_T_high - R_T_low) / (T_high - T_low)) * (T - T_low) + R_T_low

/-- The natural-convection loss at the script's constants. -/
def q_cn_at (T : ℝ) : ℝ :=
  0.0205 * rho_f ^ (0.5 : ℝ) * D ^ (0.75 : ℝ) * (T - Ta) ^ (1.25 : ℝ)

/-- The radiation loss at the script's constants. -/
def q_r_at (T : ℝ) : ℝ :=
  0.0178 * D * epsilon * (((T + 273) / 100) ^ 4 - ((Ta + 273) / 100) ^ 4)

/-- The solar gain at the script's constants (independent of `T`). -/
def q_s_val : ℝ := alpha * Q_se * Real.sin theta * area

theorem R_Tc_at_eq (T : ℝ) : R_Tc_at T = 7.283e-5 + 2.81e-7 * (T - 25) := by
  rw [R_Tc_at, R_T_high, R_T_low, T_high, T_low]
  rw [show ((8.688e-5 - 7.283e-5) / (75.0 - 25.0) : ℝ) = 2.81e-7 from by norm_num]
  norm_num
  ring

theorem R_Tc_at_pos (T : ℝ) (hT : Ta ≤ T) : 0 < R_Tc_at T := by
  rw [R_Tc_at_eq]
  rw [Ta] at hT
  nlinarith

theorem R_Tc_at_mono (T1 T2 : ℝ) (h : T1 ≤ T2) : R_Tc_at T1 ≤ R_Tc_at T2 := by
  rw [R_Tc_at_eq, R_Tc_at_eq]
  linarith

theorem sin_theta_nonneg : 0 ≤ Real.sin theta := by
  rw [theta, Real.sin_arccos]
  exact Real.sqrt_nonneg _

theorem Q_se_pos : 0 < Q_se := by
  norm_num [Q_se, K_solar, Q_s, H_c, H_e]

theorem q_s_val_nonneg : 0 ≤ q_s_val := by
  rw [q_s_val]
  have ha : (0 : ℝ) ≤ alpha := by norm_num [alpha]
  have har : (0 : ℝ) ≤ area := by norm_num [area, D]
  exact mul_nonneg (mul_nonneg (mul_nonneg ha Q_se_pos.le) sin_theta_nonneg) har

/-- Ratio monotonicity of `s^1.25` against an affine denominator. -/
theorem rpow_ratio_mono (a b s1 s2 : ℝ) (ha : 0 < a) (hb : 0 ≤ b)
    (hs1 : 0 < s1) (h12 : s1 ≤ s2) :
    s1 ^ (1.25 : ℝ) * (a + b * s2) ≤ s2 ^ (1.25 : ℝ) * (a + b * s1) := by
  have hs2 : 0 < s2 := lt_of_lt_of_le hs1 h12
  have e1 : s1 ^ (1.25 : ℝ) = s1 * s1 ^ (0.25 : ℝ) := by
    rw [show (1.25 : ℝ) = 1 + 0.25 from by norm_num, Real.rpow_add hs1, Real.rpow_one]
  have e2 : s2 ^ (1.25 : ℝ) = s2 * s2 ^ (0.25 : ℝ) := by
    rw [show (1.25 : ℝ) = 1 + 0.25 from by norm_num, Real.rpow_add hs2, Real.rpow_one]
  have hp : s1 ^ (0.25 : ℝ) ≤ s2 ^ (0.25 : ℝ) :=
    Real.rpow_le_rpow hs1.le h12 (by norm_num)
  have hp1 : 0 ≤ s1 ^ (0.25 : ℝ) := Real.rpow_nonneg hs1.le _
  have f1 : s1 * s1 ^ (0.25 : ℝ) ≤ s2 * s2 ^ (0.25 : ℝ) :=
    mul_le_mul h12 hp hp1 hs2.le
  have hbs : 0 ≤ b * s1 * s2 := mul_nonneg (mul_nonneg hb hs1.le) hs2.le
  rw [e1, e2]
  calc s1 * s1 ^ (0.25 : ℝ) * (a + b * s2)
      = a * (s1 * s1 ^ (0.25 : ℝ)) + b * s1 * s2 * s1 ^ (0.25 : ℝ) := by ring
    _ ≤ a * (s2 * s2 ^ (0.25 : ℝ)) + b * s1 * s2 * s2 ^ (0.25 : ℝ) :=
        add_le_add (mul_le_mul_of_nonneg_left f1 ha.le)
          (mul_le_mul_of_nonneg_left hp hbs)
    _ = s2 * s2 ^ (0.25 : ℝ) * (a + b * s1) := by ring

theorem conv_cross (T1 T2 : ℝ) (h1 : Ta < T1) (h12 : T1 ≤ T2) :
    q_cn_at T1 * R_Tc_at T2 ≤ q_cn_at T2 * R_Tc_at T1 := by
  have hrho : (0 : ℝ) ≤ rho_f := by norm_num [rho_f]
  have hD : (0 : ℝ) ≤ D := by norm_num [D]
  have hC : 0 ≤ 0.0205 * rho_f ^ (0.5 : ℝ) * D ^ (0.75 : ℝ) :=
    mul_nonneg (mul_nonneg (by norm_num) (Real.rpow_nonneg hrho _))
      (Real.rpow_nonneg hD _)
  have key := rpow_ratio_mono 7.283e-5 2.81e-7 (T1 - Ta) (T2 - Ta)
    (by norm_num) (by norm_num) (by linarith) (by linarith)
  have key2 := mul_le_mul_of_nonneg_left key hC
  rw [q_cn_at, q_cn_at, R_Tc_at_eq, R_Tc_at_eq]
  rw [Ta] at key2 ⊢
  nlinarith [key2]

theorem rad_cross (T1 T2 : ℝ) (h1 : Ta ≤ T1) (h12 : T1 ≤ T2) :
    q_r_at T1 * R_Tc_at T2 ≤ q_r_at T2 * R_Tc_at T1 := by
  rw [q_r_at, q_r_at, R_Tc_at_eq, R_Tc_at_eq, D, epsilon, Ta]
  rw [Ta] at h1
  have hA : (0 : ℝ) ≤ T1 - 25 := by linarith
  have hB : (0 : ℝ) ≤ T2 - T1 := by linarith
  have h298 : (0 : ℝ) ≤ T1 + 273 := by linarith
  have key : 0.0178 * 22.8 * 0.5 * (((T2 + 273) / 100) ^ 4 - ((25.0 + 273) / 100) ^ 4)
        * (7.283e-5 + 2.81e-7 * (T1 - 25))
      - 0.0178 * 22.8 * 0.5 * (((T1 + 273) / 100) ^ 4 - ((25.0 + 273) / 100) ^ 4)
        * (7.283e-5 + 2.81e-7 * (T2 - 25))
      = (0.0178 * 22.8 * 0.5 / 100 ^ 4) *
        ((T2 - T1) * (4 * 7.283e-5 * (T1 + 273) ^ 3
            + 2.81e-7 * (3 * (T1 - 25) ^ 4 + 2384 * (T1 - 25) ^ 3 + 532824 * (T1 - 25) ^ 2))
          + (7.283e-5 + 2.81e-7 * (T1 - 25)) *
            (6 * (T1 + 273) ^ 2 * (T2 - T1) ^ 2 + 4 * (T1 + 273) * (T2 - T1) ^ 3
              + (T2 - T1) ^ 4)) := by
    ring
  have e1 : 0 ≤ 4 * 7.283e-5 * (T1 + 273) ^ 3
      + 2.81e-7 * (3 * (T1 - 25) ^ 4 + 2384 * (T1 - 25) ^ 3 + 532824 * (T1 - 25) ^ 2) := by
    have := pow_nonneg h298 3
    have := pow_nonneg hA 4
    have := pow_nonneg hA 3
    have := pow_nonneg hA 2
    linarith
  have e2 : (0 : ℝ) ≤ 7.283e-5 + 2.81e-7 * (T1 - 25) := by linarith
  have e3 : 0 ≤ 6 * (T1 + 273) ^ 2 * (T2 - T1) ^ 2 + 4 * (T1 + 273) * (T2 - T1) ^ 3
      + (T2 - T1) ^ 4 := by
    have a1 : 0 ≤ (T1 + 273) ^ 2 * (T2 - T1) ^ 2 :=
      mul_nonneg (pow_nonneg h298 2) (pow_nonneg hB 2)
    have a2 : 0 ≤ (T1 + 273) * (T2 - T1) ^ 3 := mul_nonneg h298 (pow_nonneg hB 3)
    have a3 : 0 ≤ (T2 - T1) ^ 4 := pow_nonneg hB 4
    linarith
  nlinarith [key, mul_nonneg hB e1, mul_nonneg e2 e3]

/-- C7: at the script's fixed parameters, the heat-balance function is
non-decreasing on `[Ta + eps, Ta * 1000]`: whenever it returns values at
`Tc1 ≤ Tc2` in that bracket, `I(Tc1) ≤ I(Tc2)`. -/
theorem heat_balance_monotone (eps Tc1 Tc2 I1 I2 : ℝ) (heps : 0 < eps)
    (hlo : Ta + eps ≤ Tc1) (h12 : Tc1 ≤ Tc2) (hhi : Tc2 ≤ Ta * 1000)
    (hI1 : get_i Tc1 R_T_high R_T_low T_high T_low Ta rho_f D epsilon alpha
      Q_se theta area = some I1)
    (hI2 : get_i Tc2 R_T_high R_T_low T_high T_low Ta rho_f D epsilon alpha
      Q_se theta area = some I2) :
    I1 ≤ I2 := by
  have hTa1 : Ta ≤ Tc1 := by linarith
  have hTa2 : Ta ≤ Tc2 := by linarith
  rw [get_i_eq, if_neg (not_lt.mpr hTa1)] at hI1
  rw [get_i_eq, if_neg (not_lt.mpr hTa2)] at hI2
  change (if (q_cn_at Tc1 + q_r_at Tc1 - q_s_val) / R_Tc_at Tc1 < 0 then none
    else some (Real.sqrt ((q_cn_at Tc1 + q_r_at Tc1 - q_s_val) / R_Tc_at Tc1)))
    = some I1 at hI1
  change (if (q_cn_at Tc2 + q_r_at Tc2 - q_s_val) / R_Tc_at Tc2 < 0 then none
    else some (Real.sqrt ((q_cn_at Tc2 + q_r_at Tc2 - q_s_val) / R_Tc_at Tc2)))
    = some I2 at hI2
  split_ifs at hI1 with hneg1
  split_ifs at hI2 with hneg2
  rw [Option.some.injEq] at hI1 hI2
  rw [← hI1, ← hI2]
  apply Real.sqrt_le_sqrt
  have hd1 := R_Tc_at_pos Tc1 hTa1
  have hd2 := R_Tc_at_pos Tc2 hTa2
  rw [div_le_div_iff hd1 hd2]
  have hi := conv_cross Tc1 Tc2 (by linarith) h12
  have hii := rad_cross Tc1 Tc2 hTa1 h12
  have hiii := mul_le_mul_of_nonneg_left (R_Tc_at_mono Tc1 Tc2 h12) q_s_val_nonneg
  nlinarith [hi, hii, hiii]

/-- Nonnegativity of the radicand when the radiation loss alone dominates
the solar gain (the solar gain is at most `12` at the script's values). -/
theorem rad_nonneg_at (T : ℝ) (hTa : Ta ≤ T)
    (hqr : 12 ≤ 0.0178 * D * epsilon * (((T + 273) / 100) ^ 4 - ((Ta + 273) / 100) ^ 4)) :
    0 ≤ (0.0205 * rho_f ^ (0.5 : ℝ) * D ^ (0.75 : ℝ) * (T - Ta) ^ (1.25 : ℝ)
        + 0.0178 * D * epsilon * (((T + 273) / 100) ^ 4 - ((Ta + 273) / 100) ^ 4)
        - alpha * Q_se * Real.sin theta * area)
      / (((R_T_high - R_T_low) / (T_high - T_low)) * (T - T_low) + R_T_low) := by
  apply div_nonneg
  · have hqcn : 0 ≤ 0.0205 * rho_f ^ (0.5 : ℝ) * D ^ (0.75 : ℝ) * (T - Ta) ^ (1.25 : ℝ) :=
      mul_nonneg (mul_nonneg (mul_nonneg (by norm_num)
        (Real.rpow_nonneg (by norm_num [rho_f]) _))
        (Real.rpow_nonneg (by norm_num [D]) _))
        (Real.rpow_nonneg (by linarith) _)
    have haQ : (0 : ℝ) ≤ alpha * Q_se := mul_nonneg (by norm_num [alpha]) Q_se_pos.le
    have hqs : alpha * Q_se * Real.sin theta * area ≤ 12 := by
      have step : alpha * Q_se * Real.sin theta * area ≤ alpha * Q_se * 1 * area :=
        mul_le_mul_of_nonneg_right
          (mul_le_mul_of_nonneg_left (Real.sin_le_one theta) haQ)
          (by norm_num [area, D])
      calc alpha * Q_se * Real.sin theta * area ≤ alpha * Q_se * 1 * area := step
        _ ≤ 12 := by norm_num [alpha, area, D, Q_se, K_solar, Q_s, H_c, H_e]
    linarith
  · exact (R_Tc_at_pos T hTa).le

/-- Witness for C7 at `Tc1 = 125`, `Tc2 = 126` within `[Ta + 100, Ta * 1000]`. -/
theorem heat_balance_monotone_witness :
    Real.sqrt ((0.0205 * rho_f ^ (0.5 : ℝ) * D ^ (0.75 : ℝ) * ((125 : ℝ) - Ta) ^ (1.25 : ℝ)
        + 0.0178 * D * epsilon * ((((125 : ℝ) + 273) / 100) ^ 4 - ((Ta + 273) / 100) ^ 4)
        - alpha * Q_se * Real.sin theta * area)
      / (((R_T_high - R_T_low) / (T_high - T_low)) * ((125 : ℝ) - T_low) + R_T_low)) ≤
    Real.sqrt ((0.0205 * rho_f ^ (0.5 : ℝ) * D ^ (0.75 : ℝ) * ((126 : ℝ) - Ta) ^ (1.25 : ℝ)
        + 0.0178 * D * epsilon * ((((126 : ℝ) + 273) / 100) ^ 4 - ((Ta + 273) / 100) ^ 4)
        - alpha * Q_se * Real.sin theta * area)
      / (((R_T_high - R_T_low) / (T_high - T_low)) * ((126 : ℝ) - T_low) + R_T_low)) := by
  have h125 := get_i_some 125 R_T_high R_T_low T_high T_low Ta rho_f D epsilon alpha
    Q_se theta area (by norm_num [Ta])
    (rad_nonneg_at 125 (by norm_num [Ta]) (by norm_num [D, epsilon, Ta]))
  have h126 := get_i_some 126 R_T_high R_T_low T_high T_low Ta rho_f D epsilon alpha
    Q_se theta area (by norm_num [Ta])
    (rad_nonneg_at 126 (by norm_num [Ta]) (by norm_num [D, epsilon, Ta]))
  exact heat_balance_monotone 100 125 126 _ _ (by norm_num) (by norm_num [Ta])
    (by norm_num) (by norm_num [Ta]) h125 h126

/-! ## The negative-radicand behavior of `get_i` (C8)

At `Tc = Ta` the convection and radiation terms vanish, so the radicand is
`-q_s / R_T_low`, which is strictly negative because the solar gain is
strictly positive; `math.sqrt` therefore raises `ValueError` instead of
producing the real component of a complex square root (the `np.real`
wrapper at source line 94 sits outside the failing `math.sqrt` call). -/

theorem sin_theta_pos : 0 < Real.sin theta := by
  rw [theta, Real.sin_arccos]
  apply Real.sqrt_pos.mpr
  have hZ : Z_c - Z_l = (49 : ℝ) := by norm_num [Z_c, Z_l]
  rw [hZ]
  have hc49 : Real.cos 49 ^ 2 < 1 := by
    rcases lt_or_ge (Real.cos 49 ^ 2) 1 with h | h
    · exact h
    · exfalso
      have hle : Real.cos 49 ^ 2 ≤ 1 := Real.cos_sq_le_one 49
      have heq : Real.cos 49 ^ 2 = 1 := le_antisymm hle h
      have hssq : Real.sin 49 ^ 2 = 0 := by
        have hpy := Real.sin_sq_add_cos_sq (49 : ℝ)
        linarith
      have hs : Real.sin (49 : ℝ) = 0 :=
        (pow_eq_zero_iff (by norm_num : (2 : ℕ) ≠ 0)).mp hssq
      rw [Real.sin_eq_zero_iff] at hs
      obtain ⟨n, hn⟩ := hs
      have hn0 : n ≠ 0 := by
        rintro rfl
        norm_num at hn
      have hne : ((n : ℝ)) ≠ 0 := Int.cast_ne_zero.mpr hn0
      have hpi : Real.pi = (49 : ℝ) / (n : ℝ) := by
        rw [eq_div_iff hne]
        linarith [hn, mul_comm (n : ℝ) Real.pi]
      have hirr := irrational_pi
      rw [hpi] at hirr
      exact hirr ⟨(49 : ℚ) / (n : ℚ), by push_cast; norm_num⟩
  have h1 : Real.cos H_c ^ 2 ≤ 1 := Real.cos_sq_le_one H_c
  have h3 : 0 ≤ Real.cos 49 ^ 2 := sq_nonneg _
  have habs : (Real.cos H_c * Real.cos 49) ^ 2 < 1 := by
    calc (Real.cos H_c * Real.cos 49) ^ 2
        = Real.cos H_c ^ 2 * Real.cos 49 ^ 2 := by ring
      _ ≤ 1 * Real.cos 49 ^ 2 := mul_le_mul_of_nonneg_right h1 h3
      _ = Real.cos 49 ^ 2 := one_mul _
      _ < 1 := hc49
  linarith

theorem q_s_val_pos : 0 < q_s_val := by
  rw [q_s_val]
  have ha : (0 : ℝ) < alpha := by norm_num [alpha]
  have har : (0 : ℝ) < area := by norm_num [area, D]
  exact mul_pos (mul_pos (mul_pos ha Q_se_pos) sin_theta_pos) har

/-- C8 (the code, as written): at `Tc = Ta` (with the script's parameters)
the radicand is negative and `get_i` produces no real result: `math.sqrt`
raises, so the evaluation used by the equilibrium solver is not total on
such inputs. -/
theorem get_i_raises_on_negative_radicand :
    get_i Ta R_T_high R_T_low T_high T_low Ta rho_f D epsilon alpha Q_se theta area
      = none := by
  have hnum : (0.0205 * rho_f ^ (0.5 : ℝ) * D ^ (0.75 : ℝ) * (Ta - Ta) ^ (1.25 : ℝ)
      + 0.0178 * D * epsilon * (((Ta + 273) / 100) ^ 4 - ((Ta + 273) / 100) ^ 4)
      - alpha * Q_se * Real.sin theta * area) < 0 := by
    simp only [sub_self]
    rw [Real.zero_rpow (by norm_num : (1.25 : ℝ) ≠ 0)]
    have := q_s_val_pos
    rw [q_s_val] at this
    simp only [mul_zero, add_zero, zero_add, zero_sub]
    linarith
  have hR : (0 : ℝ) <
      ((R_T_high - R_T_low) / (T_high - T_low)) * (Ta - T_low) + R_T_low := by
    norm_num [R_T_high, R_T_low, T_high, T_low, Ta]
  rw [get_i_eq, if_neg (lt_irrefl Ta), if_pos (div_neg_of_neg_of_pos hnum hR)]

end

end IEEE738
